import Mathlib

/-!
Verification development for the HDFS remote file-source layer
(`fileSources.ts`): path joiner, `File` entity, factory host/port
normalization, and the event-driven file-source operations
(`enumerateFiles`, `mkdir`, `readFile`, `readFileLines`, `writeFile`,
`delete`, `exists`).

JavaScript strings manipulated character-wise (the host string of the
connection options) are embedded as `List Char`; strings that are only
concatenated or compared are embedded as Lean `String`.  JavaScript
numbers produced by `Number.parseInt` are embedded as `JSNumber`
(an integer or `NaN`).  Promises are embedded as an explicit
settlement state with first-settlement-wins semantics, and each
event-driven operation as a step function folded over the list of
events the underlying client delivers.
-/

/-- A JavaScript string viewed as a list of characters (used for the
character-level host-string manipulation in the factory). -/
abbrev JSString := List Char

/-- A JavaScript number as produced by `Number.parseInt`: either an
integer or `NaN`. -/
inductive JSNumber where
  | nan : JSNumber
  | num : Int → JSNumber
deriving DecidableEq

/-- Decimal value of a list of digit characters. -/
def digitsToNat (ds : List Char) : Nat :=
  ds.foldl (fun a c => a * 10 + (c.toNat - 48)) 0

/-- Parse a leading run of decimal digits; `NaN` when there is none. -/
def jsParseIntDigits (s : JSString) : JSNumber :=
  let ds := s.takeWhile Char.isDigit
  if ds.isEmpty then JSNumber.nan else JSNumber.num (digitsToNat ds)

/-- The builtin `Number.parseInt` on a string (decimal case): skip leading
whitespace, read an optional sign and then decimal digits; `NaN` when
no digit follows. -/
def jsParseInt (s : JSString) : JSNumber :=
  let t := s.dropWhile (fun c => c == ' ' || c == '\t' || c == '\n' || c == '\r')
  match t with
  | '-' :: rest =>
      match jsParseIntDigits rest with
      | JSNumber.nan => JSNumber.nan
      | JSNumber.num n => JSNumber.num (-n)
  | '+' :: rest => jsParseIntDigits rest
  | _ => jsParseIntDigits t

/-- Index of the first occurrence of a character in a list, if any. -/
def idxOfChar (c : Char) : JSString → Option Nat
  | [] => none
  | x :: xs => if x = c then some 0 else (idxOfChar c xs).map (· + 1)

/-- The builtin `String.prototype.indexOf` for a single-character search string:
the index of the first occurrence, `-1` when absent. -/
def jsIndexOf (s : JSString) (c : Char) : Int :=
  match idxOfChar c s with
  | none => -1
  | some i => (i : Int)

/-- The builtin `String.prototype.slice` with non-negative bounds. -/
def jsSlice (s : JSString) (start stop : Int) : JSString :=
  (s.take stop.toNat).drop start.toNat

/-- The builtin `s.replace(pat, repl)` for string patterns: replace the first
occurrence of `pat` in `s` (the string is unchanged when `pat` does
not occur). -/
def jsReplaceFirst : JSString → JSString → JSString → JSString
  | [], pat, repl => if pat.isEmpty then repl else []
  | x :: xs, pat, repl =>
      if pat.isPrefixOf (x :: xs) then repl ++ (x :: xs).drop pat.length
      else x :: jsReplaceFirst xs pat repl

/-- Interface `IHttpAuthentication` from the source. -/
structure IHttpAuthentication where
  user : JSString
  pass : JSString
deriving DecidableEq

/-- Interface `IRequestParams` from the source.  The `agent` field (an
`https.Agent`, an external collaborator object) is not embedded. -/
structure IRequestParams where
  auth : Option IHttpAuthentication
  timeout : Option JSNumber
deriving DecidableEq

/-- Interface `IHdfsOptions` from the source: the connection options normalized
by the factory. -/
structure IHdfsOptions where
  host : Option JSString
  port : Option JSNumber
  protocol : Option JSString
  user : Option JSString
  path : Option JSString
  requestParams : Option IRequestParams
deriving DecidableEq

/-- Source `FileSourceFactory.setHostAndPort`: when the delimiter occurs in
`options.host`, replace the host by the part before the first
occurrence and overwrite `options.port` with
`Number.parseInt(optionsHost.replace(options.host + delimeter, ''))`.
The caller guarantees `options.host` is set; the `none` branch is
unreachable from the source call sites. -/
def setHostAndPort (options : IHdfsOptions) (delimeter : Char) : IHdfsOptions :=
  match options.host with
  | none => options
  | some optionsHost =>
      if jsIndexOf optionsHost delimeter > -1 then
        let newHost := jsSlice optionsHost 0 (jsIndexOf optionsHost delimeter)
        { options with
            host := some newHost
            port := some (jsParseInt (jsReplaceFirst optionsHost (newHost ++ [delimeter]) [])) }
      else options

/-- Source `FileSourceFactory.removePortFromHost`: split on `','` first,
then on `':'`. -/
def removePortFromHost (options : IHdfsOptions) : IHdfsOptions :=
  setHostAndPort (setHostAndPort options ',') ':'

/-- Options-normalization fragment of
`FileSourceFactory.createHdfsFileSource`:
`options = options && options.host ? FileSourceFactory.removePortFromHost(options) : options`.
A nonempty host string is truthy; an absent or empty host skips the
normalization.  The remainder of the source method (TLS-agent and
webhdfs-client construction) performs external side effects and is
outside the embedding. -/
def createHdfsFileSourceOptions (options : IHdfsOptions) : IHdfsOptions :=
  match options.host with
  | some (_ :: _) => removePortFromHost options
  | _ => options

/-- Modelled from the spec: the root sentinel path
(`constants.hdfsRootPath`, whose defining module is not among the
sources) is the canonical filesystem root `"/"`. -/
def hdfsRootPath : String := "/"

/-- Function `joinHdfsPath` from the source. -/
def joinHdfsPath (parent : String) (child : String) : String :=
  if parent = hdfsRootPath then "/" ++ child
  else parent ++ "/" ++ child

/-- The `File` entity: an immutable `{path, isDirectory}` descriptor. -/
structure File where
  path : String
  isDirectory : Bool
deriving DecidableEq

/-- Method `File.createPath` from the source. -/
def File.createPath (path : String) (fileName : String) : String :=
  joinHdfsPath path fileName

/-- Method `File.createChild` from the source. -/
def File.createChild (parent : File) (fileName : String) (isDirectory : Bool) : File :=
  File.mk (File.createPath parent.path fileName) isDirectory

/-- Method `File.createFile` from the source. -/
def File.createFile (parent : File) (fileName : String) : File :=
  File.createChild parent fileName false

/-- Method `File.createDirectory` from the source. -/
def File.createDirectory (parent : File) (fileName : String) : File :=
  File.createChild parent fileName true

/-- An error object: the embedding keeps the `message` property used
by the source. -/
structure JSError where
  message : String
deriving DecidableEq

/-- A JavaScript value used as a promise rejection reason: either a
plain string or a raw error object. -/
inductive JSValue where
  | str (s : String)
  | errObj (e : JSError)
deriving DecidableEq

/-- Truthiness of a rejection-reason value: an empty string is falsy,
everything else here is truthy. -/
def JSValue.truthy : JSValue → Bool
  | JSValue.str s => !(s == "")
  | JSValue.errObj _ => true

/-- Truthiness of an optional string variable (`undefined` and `""`
are falsy). -/
def jsTruthyOptStr : Option String → Bool
  | none => false
  | some s => !(s == "")

/-- Truthiness of an optional rejection-reason variable. -/
def jsTruthyOptVal : Option JSValue → Bool
  | none => false
  | some v => v.truthy

/-- The builtin `Error.prototype.toString()`: renders `name: message`; the
embedding fixes the name to `Error`. -/
def jsErrorToString (e : JSError) : String :=
  "Error: " ++ e.message

/-- The state of a promise: pending, or settled exactly once. -/
inductive Settlement (α : Type) where
  | pending
  | resolved (v : α)
  | rejected (e : JSValue)
deriving DecidableEq

/-- Whether a settlement is a rejection. -/
def Settlement.isRejected {α : Type} : Settlement α → Bool
  | Settlement.rejected _ => true
  | _ => false

/-- A promise with its settlement and the number of `resolve` and
`reject` invocations made by the executor (invocations after the
first settlement are no-ops on the settlement itself). -/
structure PState (α : Type) where
  sett : Settlement α
  resolveAttempts : Nat
  rejectAttempts : Nat
deriving DecidableEq

/-- Invoke `resolve v`: records the attempt; settles only when still
pending. -/
def PState.resolve {α : Type} (p : PState α) (v : α) : PState α :=
  { sett := match p.sett with
      | Settlement.pending => Settlement.resolved v
      | s => s
    resolveAttempts := p.resolveAttempts + 1
    rejectAttempts := p.rejectAttempts }

/-- Invoke `reject e`: records the attempt; settles only when still
pending. -/
def PState.reject {α : Type} (p : PState α) (e : JSValue) : PState α :=
  { sett := match p.sett with
      | Settlement.pending => Settlement.rejected e
      | s => s
    resolveAttempts := p.resolveAttempts
    rejectAttempts := p.rejectAttempts + 1 }

/-- The initial (pending, no attempts) promise. -/
def PState.start {α : Type} : PState α :=
  { sett := Settlement.pending, resolveAttempts := 0, rejectAttempts := 0 }

/-- Values of `HdfsFileStatus.type`. -/
inductive HdfsFileType where
  | FILE
  | DIRECTORY
deriving DecidableEq

/-- Interface `IHdfsFileStatus` from the source. -/
structure IHdfsFileStatus where
  type : HdfsFileType
  pathSuffix : String
deriving DecidableEq

/-- Source `HdfsFileSource.enumerateFiles`: the client's `readdir` calls back
with either an error or the listing; on error the promise is rejected
with `error.message`, on success each entry is mapped in order to a
`File` rooted at `path`. -/
def HdfsFileSource.enumerateFiles (readdir : String → Except JSError (List IHdfsFileStatus))
    (path : String) : Settlement (List File) :=
  match readdir path with
  | Except.error e => Settlement.rejected (JSValue.str e.message)
  | Except.ok files =>
      Settlement.resolved (files.map fun file =>
        File.mk (File.createPath path file.pathSuffix) (file.type == HdfsFileType.DIRECTORY))

/-- Source `HdfsFileSource.mkdir`: joins the remote path and delegates to the
client's `mkdir`; rejects with the raw error value on failure. -/
def HdfsFileSource.mkdir (clientMkdir : String → Option JSError)
    (dirName : String) (remoteBasePath : String) : Settlement Unit :=
  let remotePath := joinHdfsPath remoteBasePath dirName
  match clientMkdir remotePath with
  | some err => Settlement.rejected (JSValue.errObj err)
  | none => Settlement.resolved ()

/-- Source `HdfsFileSource.delete`: delegates to the client's `rmdir`;
rejects with the raw error value on failure. -/
def HdfsFileSource.delete (clientRmdir : String → Bool → Option JSError)
    (path : String) (recursive : Bool := false) : Settlement Unit :=
  match clientRmdir path recursive with
  | some e => Settlement.rejected (JSValue.errObj e)
  | none => Settlement.resolved ()

/-- Source `HdfsFileSource.exists` (spelled `existsCheck`, `exists` being a
Lean keyword): the client's existence callback result is passed
straight to `resolve`; there is no rejection branch. -/
def HdfsFileSource.existsCheck (clientExists : String → Bool) (path : String) : Settlement Bool :=
  Settlement.resolved (clientExists path)

/-- An event delivered by the remote read stream of `readFile`. -/
inductive StreamEvent where
  | data (chunk : String)
  | error (e : JSError)
  | finish
deriving DecidableEq

/-- The executor state of `HdfsFileSource.readFile`: the chunk buffer,
the captured error text, whether the once-registered finish handler
has already run, and the promise. -/
structure ReadFileState where
  data : List String
  error : Option String
  finishSeen : Bool
  promise : PState String
deriving DecidableEq

/-- The error text the byte-counting limiter is recognised by
(`error.includes('Stream exceeded specified max')`). -/
def bytesMarker : String := "Stream exceeded specified max"

/-- Substring test on character lists (`String.prototype.includes`). -/
def listIncludes (pat : List Char) : List Char → Bool
  | [] => pat.isEmpty
  | c :: cs => pat.isPrefixOf (c :: cs) || listIncludes pat cs

/-- The builtin `s.includes(pat)` on Lean strings. -/
def jsIncludes (s : String) (pat : String) : Bool :=
  listIncludes pat.toList s.toList

/-- Modelled from the spec: the external `bytes` formatter renders a
byte count as a short human-readable string naming the maximum
(for example `10 → "10B"`); an absent count renders as `null`. -/
def bytesFormat : Option Nat → String
  | some n => toString n ++ "B"
  | none => "null"

/-- The error-text rewrite in `readFile`'s error handler: a limiter
cap-exceeded text becomes the human-readable message naming the
configured maximum; any other text is kept as is. -/
def rewriteReadFileError (maxBytes : Option Nat) (msg : String) : String :=
  if jsIncludes msg bytesMarker then "File exceeds max size of " ++ bytesFormat maxBytes
  else msg

/-- One event of `HdfsFileSource.readFile`'s executor: `data` buffers
the chunk; `error` stores the (possibly rewritten) `err.toString()`
text and rejects; the once-registered `finish` handler resolves with
the concatenated buffer when no error was captured. -/
def HdfsFileSource.readFileStep (maxBytes : Option Nat) (st : ReadFileState) :
    StreamEvent → ReadFileState
  | StreamEvent.data chunk => { st with data := st.data ++ [chunk] }
  | StreamEvent.error err =>
      let e := rewriteReadFileError maxBytes (jsErrorToString err)
      { st with error := some e, promise := st.promise.reject (JSValue.str e) }
  | StreamEvent.finish =>
      if st.finishSeen then st
      else
        { st with
            finishSeen := true
            promise :=
              if jsTruthyOptStr st.error then st.promise
              else st.promise.resolve (String.join st.data) }

/-- Run `readFile`'s executor over the events the (possibly
meter-piped) stream delivers. -/
def HdfsFileSource.readFileRun (maxBytes : Option Nat) (events : List StreamEvent) :
    ReadFileState :=
  events.foldl (HdfsFileSource.readFileStep maxBytes)
    { data := [], error := none, finishSeen := false, promise := PState.start }

/-- The `if (maxBytes)` guard of `readFile`: the limiter is piped in
only for a truthy byte limit (`undefined` and `0` are falsy). -/
def readFileUsesLimiter (maxBytes : Option Nat) : Bool :=
  match maxBytes with
  | some n => n != 0
  | none => false

/-- Modelled from the spec: a nominal remote stream delivers its
content chunks in order followed by a single finish signal. -/
def sourceStreamEvents (chunks : List String) : List StreamEvent :=
  chunks.map StreamEvent.data ++ [StreamEvent.finish]

/-- Modelled from the spec: the byte-counting limiter (the external
`stream-meter` collaborator) forwards chunks while the cumulative
size stays within the cap and signals the cap-exceeded error the
moment the cap is exceeded. -/
def meterStreamEvents (maxBytes : Nat) : Nat → List String → List StreamEvent
  | _, [] => [StreamEvent.finish]
  | total, chunk :: rest =>
      if maxBytes < total + chunk.length then [StreamEvent.error (JSError.mk bytesMarker)]
      else StreamEvent.data chunk :: meterStreamEvents maxBytes (total + chunk.length) rest

/-- End-to-end `readFile` over a nominal source: the executor run on
the events of the raw stream, or of the meter-piped stream when the
byte limit is truthy. -/
def HdfsFileSource.readFileResult (maxBytes : Option Nat) (chunks : List String) :
    ReadFileState :=
  HdfsFileSource.readFileRun maxBytes
    (if readFileUsesLimiter maxBytes then meterStreamEvents (maxBytes.getD 0) 0 chunks
     else sourceStreamEvents chunks)

/-- An event delivered to `readFileLines`'s line reader. -/
inductive LineEvent where
  | line (l : String)
  | err (e : JSError)
  | close
deriving DecidableEq

/-- The executor state of `HdfsFileSource.readFileLines`. -/
structure ReadFileLinesState where
  lineCount : Nat
  lineData : List String
  errorMsg : Option String
  readerClosed : Bool
  promise : PState String
deriving DecidableEq

/-- Modelled from the spec: the platform line terminator `os.EOL`,
here the single newline. -/
def osEOL : String := "\n"

/-- The `line` handler of `readFileLines`: count and buffer the line;
on reaching `maxLines`, resolve with the buffered lines joined by the
platform terminator and close the reader. -/
def HdfsFileSource.readFileLinesOnLine (maxLines : Nat) (st : ReadFileLinesState)
    (l : String) : ReadFileLinesState :=
  let st1 := { st with lineCount := st.lineCount + 1, lineData := st.lineData ++ [l] }
  if st1.lineCount ≥ maxLines then
    { st1 with
        promise := st1.promise.resolve (String.intercalate osEOL st1.lineData)
        readerClosed := true }
  else st1

/-- One event of `readFileLines`'s executor.  A line event is
discarded once the reader was closed (the reader stops emitting after
`close()`); the `error` handler stores the normalized message
(`utils.getErrorMessage`, modelled as the error's message) and
rejects; the `close` handler resolves with the lines collected so far
when no error was captured. -/
def HdfsFileSource.readFileLinesStep (maxLines : Nat) (st : ReadFileLinesState) :
    LineEvent → ReadFileLinesState
  | LineEvent.line l =>
      if st.readerClosed then st else HdfsFileSource.readFileLinesOnLine maxLines st l
  | LineEvent.err e =>
      { st with errorMsg := some e.message, promise := st.promise.reject (JSValue.str e.message) }
  | LineEvent.close =>
      if jsTruthyOptStr st.errorMsg then st
      else { st with promise := st.promise.resolve (String.intercalate osEOL st.lineData) }

/-- Run `readFileLines`'s executor over a list of reader events. -/
def HdfsFileSource.readFileLinesRun (maxLines : Nat) (events : List LineEvent) :
    ReadFileLinesState :=
  events.foldl (HdfsFileSource.readFileLinesStep maxLines)
    { lineCount := 0, lineData := [], errorMsg := none, readerClosed := false,
      promise := PState.start }

/-- Modelled from the spec: over a nominal stream the line reader
delivers each input line in order as a line event followed by a single
close event; lines arriving after the handler closed the reader are
discarded by the step function. -/
def HdfsFileSource.readFileLinesResult (maxLines : Nat) (sourceLines : List String) :
    ReadFileLinesState :=
  HdfsFileSource.readFileLinesRun maxLines (sourceLines.map LineEvent.line ++ [LineEvent.close])

/-- An event delivered by the remote write sink of `writeFile`. -/
inductive WriteEvent where
  | error (e : JSValue)
  | finish (location : String)
deriving DecidableEq

/-- The executor state of `HdfsFileSource.writeFile`: the captured
error value consulted at finish time, and the promise. -/
structure WriteFileState where
  error : Option JSValue
  promise : PState String
deriving DecidableEq

/-- One event of `writeFile`'s executor: `error` captures the raw
error value and rejects with it; `finish` resolves with the supplied
location only when no error was captured before. -/
def HdfsFileSource.writeFileStep (st : WriteFileState) : WriteEvent → WriteFileState
  | WriteEvent.error e => { st with error := some e, promise := st.promise.reject e }
  | WriteEvent.finish location =>
      if jsTruthyOptVal st.error then st
      else { st with promise := st.promise.resolve location }

/-- Run `writeFile`'s executor over the events the write sink
delivers. -/
def HdfsFileSource.writeFileRun (events : List WriteEvent) : WriteFileState :=
  events.foldl HdfsFileSource.writeFileStep { error := none, promise := PState.start }

/-- Concrete connection options used to witness the factory
normalization. -/
def c1OptsW : IHdfsOptions :=
  { host := some ('a' :: ',' :: '1' :: '8' :: []), port := none, protocol := none,
    user := none, path := none, requestParams := none }

/-- Concrete listing used to witness `enumerateFiles`. -/
def enumEntriesW : List IHdfsFileStatus :=
  [IHdfsFileStatus.mk HdfsFileType.DIRECTORY "d", IHdfsFileStatus.mk HdfsFileType.FILE "f"]

/-- Concrete client used to witness `enumerateFiles`. -/
def enumReaddirW : String → Except JSError (List IHdfsFileStatus) :=
  fun _ => Except.ok enumEntriesW

/-- Settlement of a promise is preserved by `resolve` once it is no
longer pending. -/
theorem PState.resolve_sett_of_settled {α : Type} (p : PState α) (v : α)
    (h : p.sett ≠ Settlement.pending) : (p.resolve v).sett = p.sett := by
  cases hs : p.sett with
  | pending => exact absurd hs h
  | resolved w => simp [PState.resolve, hs]
  | rejected e => simp [PState.resolve, hs]

/-- Settlement of a promise is preserved by `reject` once it is no
longer pending. -/
theorem PState.reject_sett_of_settled {α : Type} (p : PState α) (e : JSValue)
    (h : p.sett ≠ Settlement.pending) : (p.reject e).sett = p.sett := by
  cases hs : p.sett with
  | pending => exact absurd hs h
  | resolved w => simp [PState.reject, hs]
  | rejected e2 => simp [PState.reject, hs]

/-- Claim C9: the path joiner returns `"/" ++ child` when the parent
is the root sentinel and `parent ++ "/" ++ child` otherwise; in
particular `join(root, "a") = "/a"` and `join("/a", "b") = "/a/b"`. -/
theorem joinHdfsPath_contract :
    (∀ parent child, joinHdfsPath parent child =
        if parent = hdfsRootPath then "/" ++ child else parent ++ "/" ++ child)
  ∧ joinHdfsPath hdfsRootPath "a" = "/a"
  ∧ joinHdfsPath "/a" "b" = "/a/b" :=
  ⟨fun _ _ => rfl, by decide, by decide⟩

/-- Claim C8: `exists(path)` resolves with exactly the boolean the
client's existence callback reports and has no rejection branch at
this layer. -/
theorem exists_resolves_client_boolean (clientExists : String → Bool) (path : String) :
    HdfsFileSource.existsCheck clientExists path = Settlement.resolved (clientExists path)
  ∧ (HdfsFileSource.existsCheck clientExists path).isRejected = false :=
  ⟨rfl, rfl⟩

/-- Claim C7: on a client error, `enumerateFiles` rejects with the
error's message string while `mkdir` and `delete` reject with the raw
error value itself, and the two rejection shapes are distinct. -/
theorem client_error_shapes (e : JSError) :
    (∀ (readdir : String → Except JSError (List IHdfsFileStatus)) (path : String),
        readdir path = Except.error e →
        HdfsFileSource.enumerateFiles readdir path = Settlement.rejected (JSValue.str e.message))
  ∧ (∀ (clientMkdir : String → Option JSError) (dirName remoteBasePath : String),
        clientMkdir (joinHdfsPath remoteBasePath dirName) = some e →
        HdfsFileSource.mkdir clientMkdir dirName remoteBasePath
          = Settlement.rejected (JSValue.errObj e))
  ∧ (∀ (clientRmdir : String → Bool → Option JSError) (path : String) (recursive : Bool),
        clientRmdir path recursive = some e →
        HdfsFileSource.delete clientRmdir path recursive
          = Settlement.rejected (JSValue.errObj e))
  ∧ JSValue.str e.message ≠ JSValue.errObj e := by
  refine ⟨?_, ?_, ?_, ?_⟩
  · intro readdir path h
    simp [HdfsFileSource.enumerateFiles, h]
  · intro clientMkdir dirName remoteBasePath h
    simp [HdfsFileSource.mkdir, h]
  · intro clientRmdir path recursive h
    simp [HdfsFileSource.delete, h]
  · intro h
    exact JSValue.noConfusion h

/-- Witness for C7 at a concrete error and concrete clients. -/
theorem client_error_shapes_witness :
    ((fun _ : String => (Except.error (JSError.mk "boom") : Except JSError (List IHdfsFileStatus))) "/p"
        = Except.error (JSError.mk "boom"))
  ∧ HdfsFileSource.enumerateFiles (fun _ => Except.error (JSError.mk "boom")) "/p"
      = Settlement.rejected (JSValue.str "boom")
  ∧ HdfsFileSource.mkdir (fun _ => some (JSError.mk "boom")) "d" "/p"
      = Settlement.rejected (JSValue.errObj (JSError.mk "boom"))
  ∧ HdfsFileSource.delete (fun _ _ => some (JSError.mk "boom")) "/x" true
      = Settlement.rejected (JSValue.errObj (JSError.mk "boom")) :=
  ⟨rfl,
   (client_error_shapes (JSError.mk "boom")).1 _ "/p" rfl,
   (client_error_shapes (JSError.mk "boom")).2.1 _ "d" "/p" rfl,
   (client_error_shapes (JSError.mk "boom")).2.2.1 _ "/x" true rfl⟩

/-- Claim C5: on a successful listing, `enumerateFiles` resolves with
one `File` per remote entry in listing order, with path
`join(path, pathSuffix)` and directory flag exactly when the entry
type is `DIRECTORY`. -/
theorem enumerate_maps_listing (readdir : String → Except JSError (List IHdfsFileStatus))
    (path : String) (entries : List IHdfsFileStatus)
    (h : readdir path = Except.ok entries) :
    ∃ files : List File,
      HdfsFileSource.enumerateFiles readdir path = Settlement.resolved files ∧
      files.length = entries.length ∧
      ∀ (i : Nat) (hi : i < entries.length) (hf : i < files.length),
        (files.get ⟨i, hf⟩).path = joinHdfsPath path ((entries.get ⟨i, hi⟩).pathSuffix) ∧
        ((files.get ⟨i, hf⟩).isDirectory = true ↔
          (entries.get ⟨i, hi⟩).type = HdfsFileType.DIRECTORY) := by
  refine ⟨entries.map fun file =>
      File.mk (File.createPath path file.pathSuffix) (file.type == HdfsFileType.DIRECTORY),
    ?_, by simp, ?_⟩
  · simp [HdfsFileSource.enumerateFiles, h]
  · intro i hi hf
    constructor
    · simp [List.getElem_map, File.createPath]
    · simp [List.getElem_map]

/-- Witness for C5 at the spec's concrete listing. -/
theorem enumerate_maps_listing_witness :
    (enumReaddirW "/p" = Except.ok enumEntriesW)
  ∧ ∃ files : List File,
      HdfsFileSource.enumerateFiles enumReaddirW "/p" = Settlement.resolved files ∧
      files.length = enumEntriesW.length ∧
      ∀ (i : Nat) (hi : i < enumEntriesW.length) (hf : i < files.length),
        (files.get ⟨i, hf⟩).path = joinHdfsPath "/p" ((enumEntriesW.get ⟨i, hi⟩).pathSuffix) ∧
        ((files.get ⟨i, hf⟩).isDirectory = true ↔
          (enumEntriesW.get ⟨i, hi⟩).type = HdfsFileType.DIRECTORY) :=
  ⟨rfl, enumerate_maps_listing enumReaddirW "/p" enumEntriesW rfl⟩

/-- Once `writeFile`'s promise is settled, the remaining sink events
do not change the settlement. -/
theorem writeFile_foldl_settled :
    ∀ (events : List WriteEvent) (st : WriteFileState),
      st.promise.sett ≠ Settlement.pending →
      (List.foldl HdfsFileSource.writeFileStep st events).promise.sett = st.promise.sett := by
  intro events
  induction events with
  | nil => intro st _; rfl
  | cons ev evs ih =>
    intro st hst
    cases ev with
    | error e =>
      have h1 : (st.promise.reject e).sett = st.promise.sett :=
        PState.reject_sett_of_settled st.promise e hst
      have h2 := ih { st with error := some e, promise := st.promise.reject e }
        (by simpa [h1] using hst)
      simpa [HdfsFileSource.writeFileStep, h1] using h2
    | finish location =>
      by_cases hv : jsTruthyOptVal st.error = true
      · have h2 := ih st hst
        simpa [HdfsFileSource.writeFileStep, hv] using h2
      · have h1 : (st.promise.resolve location).sett = st.promise.sett :=
          PState.resolve_sett_of_settled st.promise location hst
        have h2 := ih { st with promise := st.promise.resolve location }
          (by simpa [h1] using hst)
        simpa [HdfsFileSource.writeFileStep, hv, h1] using h2

/-- Claim C4: `writeFile` resolves with the finish-supplied location
only when no error was captured before the finish signal; when an
error fires first the promise rejects with that raw error value and
the later finish signal causes no further settlement. -/
theorem writeFile_two_phase :
    (∀ (location : String) (post : List WriteEvent),
        (HdfsFileSource.writeFileRun (WriteEvent.finish location :: post)).promise.sett
          = Settlement.resolved location)
  ∧ (∀ (e : JSValue) (post : List WriteEvent),
        (HdfsFileSource.writeFileRun (WriteEvent.error e :: post)).promise.sett
          = Settlement.rejected e)
  ∧ (∀ (events : List WriteEvent) (location : String),
        (HdfsFileSource.writeFileRun events).promise.sett = Settlement.resolved location →
        events.head? = some (WriteEvent.finish location)) := by
  have hfin : ∀ (location : String) (post : List WriteEvent),
      (HdfsFileSource.writeFileRun (WriteEvent.finish location :: post)).promise.sett
        = Settlement.resolved location := by
    intro location post
    have hstep : HdfsFileSource.writeFileStep { error := none, promise := PState.start }
        (WriteEvent.finish location)
        = { error := none,
            promise := (PState.start (α := String)).resolve location } := by
      simp [HdfsFileSource.writeFileStep, jsTruthyOptVal]
    unfold HdfsFileSource.writeFileRun
    rw [List.foldl_cons, hstep]
    rw [writeFile_foldl_settled post _ (by simp [PState.start, PState.resolve])]
    simp [PState.start, PState.resolve]
  have herr : ∀ (e : JSValue) (post : List WriteEvent),
      (HdfsFileSource.writeFileRun (WriteEvent.error e :: post)).promise.sett
        = Settlement.rejected e := by
    intro e post
    unfold HdfsFileSource.writeFileRun
    rw [List.foldl_cons]
    have hstep : HdfsFileSource.writeFileStep { error := none, promise := PState.start }
        (WriteEvent.error e)
        = { error := some e, promise := (PState.start (α := String)).reject e } := rfl
    rw [hstep]
    rw [writeFile_foldl_settled post _ (by simp [PState.start, PState.reject])]
    simp [PState.start, PState.reject]
  refine ⟨hfin, herr, ?_⟩
  intro events location hres
  cases events with
  | nil =>
    exact absurd hres (by simp [HdfsFileSource.writeFileRun, PState.start])
  | cons ev post =>
    cases ev with
    | error e =>
      rw [herr e post] at hres
      exact absurd hres (by simp)
    | finish l =>
      have := hfin l post
      rw [this] at hres
      have : l = location := by
        injection hres
      rw [this]
      rfl

/-- Witness for C4 at concrete event traces. -/
theorem writeFile_two_phase_witness :
    ((HdfsFileSource.writeFileRun [WriteEvent.finish "loc"]).promise.sett
        = Settlement.resolved "loc")
  ∧ ((HdfsFileSource.writeFileRun
        [WriteEvent.error (JSValue.errObj (JSError.mk "boom")), WriteEvent.finish "loc"]).promise.sett
        = Settlement.rejected (JSValue.errObj (JSError.mk "boom")))
  ∧ ([WriteEvent.finish "loc"].head? = some (WriteEvent.finish "loc")) :=
  ⟨writeFile_two_phase.1 "loc" [],
   writeFile_two_phase.2.1 (JSValue.errObj (JSError.mk "boom")) [WriteEvent.finish "loc"],
   writeFile_two_phase.2.2 [WriteEvent.finish "loc"] "loc" (writeFile_two_phase.1 "loc" [])⟩

/-- Data events only append to `readFile`'s chunk buffer. -/
theorem readFile_foldl_data (maxBytes : Option Nat) :
    ∀ (chunks : List String) (st : ReadFileState),
      List.foldl (HdfsFileSource.readFileStep maxBytes) st (chunks.map StreamEvent.data)
        = { st with data := st.data ++ chunks } := by
  intro chunks
  induction chunks with
  | nil => intro st; simp
  | cons c cs ih =>
    intro st
    rw [List.map_cons, List.foldl_cons]
    have hstep : HdfsFileSource.readFileStep maxBytes st (StreamEvent.data c)
        = { st with data := st.data ++ [c] } := rfl
    rw [hstep, ih]
    simp

/-- A nonempty prefix keeps a string concatenation nonempty. -/
theorem append_left_ne_empty (a b : String) (ha : a ≠ "") : a ++ b ≠ "" := by
  intro h
  have hlen := congrArg String.length h
  rw [String.length_append] at hlen
  have ha0 : a.length = 0 := by
    have hz : ("" : String).length = 0 := rfl
    omega
  have hdata : a.data = [] := List.length_eq_zero.mp ha0
  exact ha (String.ext hdata)

/-- The error text captured by `readFile`'s error handler is never
the empty string, hence always truthy. -/
theorem rewriteReadFileError_truthy (maxBytes : Option Nat) (e : JSError) :
    jsTruthyOptStr (some (rewriteReadFileError maxBytes (jsErrorToString e))) = true := by
  have hne : rewriteReadFileError maxBytes (jsErrorToString e) ≠ "" := by
    unfold rewriteReadFileError
    by_cases hinc : jsIncludes (jsErrorToString e) bytesMarker = true
    · rw [if_pos hinc]
      exact append_left_ne_empty _ _ (by decide)
    · rw [if_neg hinc]
      exact append_left_ne_empty _ _ (by decide)
  simp [jsTruthyOptStr, hne]

/-- A run of data-only events leaves everything but the chunk buffer
unchanged. -/
theorem readFile_foldl_dataOnly (maxBytes : Option Nat) :
    ∀ (pre : List StreamEvent) (st : ReadFileState),
      (∀ ev ∈ pre, ∃ c, ev = StreamEvent.data c) →
      (List.foldl (HdfsFileSource.readFileStep maxBytes) st pre).error = st.error ∧
      (List.foldl (HdfsFileSource.readFileStep maxBytes) st pre).finishSeen = st.finishSeen ∧
      (List.foldl (HdfsFileSource.readFileStep maxBytes) st pre).promise = st.promise := by
  intro pre
  induction pre with
  | nil => intro st _; exact ⟨rfl, rfl, rfl⟩
  | cons ev evs ih =>
    intro st hall
    obtain ⟨c, rfl⟩ := hall ev (List.mem_cons_self ev evs)
    rw [List.foldl_cons]
    have hstep : HdfsFileSource.readFileStep maxBytes st (StreamEvent.data c)
        = { st with data := st.data ++ [c] } := rfl
    rw [hstep]
    exact ih _ (fun e he => hall e (List.mem_cons_of_mem _ he))

/-- Once `readFile` has captured a truthy error text and its promise
is settled, later events neither change the settlement nor attempt a
resolution. -/
theorem readFile_foldl_errorLocked (maxBytes : Option Nat) :
    ∀ (post : List StreamEvent) (st : ReadFileState),
      jsTruthyOptStr st.error = true →
      st.promise.sett ≠ Settlement.pending →
      (List.foldl (HdfsFileSource.readFileStep maxBytes) st post).promise.sett
          = st.promise.sett ∧
      (List.foldl (HdfsFileSource.readFileStep maxBytes) st post).promise.resolveAttempts
          = st.promise.resolveAttempts := by
  intro post
  induction post with
  | nil => intro st _ _; exact ⟨rfl, rfl⟩
  | cons ev evs ih =>
    intro st herr hsett
    rw [List.foldl_cons]
    cases ev with
    | data c =>
      have hstep : HdfsFileSource.readFileStep maxBytes st (StreamEvent.data c)
          = { st with data := st.data ++ [c] } := rfl
      rw [hstep]
      exact ih _ herr hsett
    | error e =>
      have hstep : HdfsFileSource.readFileStep maxBytes st (StreamEvent.error e)
          = { st with
                error := some (rewriteReadFileError maxBytes (jsErrorToString e)),
                promise := st.promise.reject
                  (JSValue.str (rewriteReadFileError maxBytes (jsErrorToString e))) } := rfl
      rw [hstep]
      have hsett2 : (st.promise.reject
          (JSValue.str (rewriteReadFileError maxBytes (jsErrorToString e)))).sett
          = st.promise.sett := PState.reject_sett_of_settled _ _ hsett
      have := ih { st with
                error := some (rewriteReadFileError maxBytes (jsErrorToString e)),
                promise := st.promise.reject
                  (JSValue.str (rewriteReadFileError maxBytes (jsErrorToString e))) }
        (rewriteReadFileError_truthy maxBytes e) (by simpa [hsett2] using hsett)
      rw [this.1, this.2]
      exact ⟨hsett2, by simp [PState.reject]⟩
    | finish =>
      by_cases hseen : st.finishSeen = true
      · have hstep : HdfsFileSource.readFileStep maxBytes st StreamEvent.finish = st := by
          simp [HdfsFileSource.readFileStep, hseen]
        rw [hstep]
        exact ih st herr hsett
      · have hstep : HdfsFileSource.readFileStep maxBytes st StreamEvent.finish
            = { st with finishSeen := true } := by
          simp [HdfsFileSource.readFileStep, hseen, herr]
        rw [hstep]
        exact ih { st with finishSeen := true } herr hsett

/-- Claim C2: a stream error arriving before the finish signal rejects
`readFile`'s promise with the captured text — rewritten to the
human-readable message naming the configured maximum when the text
indicates the byte cap was exceeded, kept raw otherwise — and the
captured error suppresses every later resolution attempt, so the
operation settles exactly once. -/
theorem readFile_limit_error_contract (n : Nat) (pre post : List StreamEvent) (e0 : JSError)
    (_hn : n ≠ 0) (hpre : ∀ ev ∈ pre, ∃ c, ev = StreamEvent.data c) :
    (HdfsFileSource.readFileRun (some n) (pre ++ StreamEvent.error e0 :: post)).promise.sett
      = Settlement.rejected (JSValue.str (rewriteReadFileError (some n) (jsErrorToString e0)))
  ∧ (jsIncludes (jsErrorToString e0) bytesMarker = true →
      rewriteReadFileError (some n) (jsErrorToString e0)
        = "File exceeds max size of " ++ bytesFormat (some n))
  ∧ (jsIncludes (jsErrorToString e0) bytesMarker = false →
      rewriteReadFileError (some n) (jsErrorToString e0) = jsErrorToString e0)
  ∧ (HdfsFileSource.readFileRun
      (some n) (pre ++ StreamEvent.error e0 :: post)).promise.resolveAttempts = 0 := by
  have hmain :
      (HdfsFileSource.readFileRun (some n) (pre ++ StreamEvent.error e0 :: post)).promise.sett
        = Settlement.rejected
            (JSValue.str (rewriteReadFileError (some n) (jsErrorToString e0)))
    ∧ (HdfsFileSource.readFileRun
        (some n) (pre ++ StreamEvent.error e0 :: post)).promise.resolveAttempts = 0 := by
    unfold HdfsFileSource.readFileRun
    rw [List.foldl_append]
    set st0 : ReadFileState :=
      { data := [], error := none, finishSeen := false, promise := PState.start } with hst0
    set st1 := List.foldl (HdfsFileSource.readFileStep (some n)) st0 pre with hst1
    obtain ⟨he1, hf1, hp1⟩ := readFile_foldl_dataOnly (some n) pre st0 hpre
    rw [List.foldl_cons]
    have hstep : HdfsFileSource.readFileStep (some n) st1 (StreamEvent.error e0)
        = { st1 with
              error := some (rewriteReadFileError (some n) (jsErrorToString e0)),
              promise := st1.promise.reject
                (JSValue.str (rewriteReadFileError (some n) (jsErrorToString e0))) } := rfl
    rw [hstep]
    have hrej : (st1.promise.reject
        (JSValue.str (rewriteReadFileError (some n) (jsErrorToString e0)))).sett
        = Settlement.rejected
            (JSValue.str (rewriteReadFileError (some n) (jsErrorToString e0))) := by
      rw [hp1]
      simp [PState.start, PState.reject]
    have hres : (st1.promise.reject
        (JSValue.str (rewriteReadFileError (some n) (jsErrorToString e0)))).resolveAttempts
        = 0 := by
      rw [hp1]
      simp [PState.start, PState.reject]
    have hlock := readFile_foldl_errorLocked (some n) post
      { st1 with
          error := some (rewriteReadFileError (some n) (jsErrorToString e0)),
          promise := st1.promise.reject
            (JSValue.str (rewriteReadFileError (some n) (jsErrorToString e0))) }
      (rewriteReadFileError_truthy (some n) e0)
      (by simp [hrej])
    rw [hlock.1, hlock.2]
    exact ⟨hrej, hres⟩
  refine ⟨hmain.1, ?_, ?_, hmain.2⟩
  · intro hinc
    simp [rewriteReadFileError, hinc]
  · intro hninc
    simp [rewriteReadFileError, hninc]

/-- Witness for C2 at the limiter's cap-exceeded error. -/
theorem readFile_limit_error_contract_witness :
    (10 ≠ 0)
  ∧ (∀ ev ∈ ([] : List StreamEvent), ∃ c, ev = StreamEvent.data c)
  ∧ ((HdfsFileSource.readFileRun (some 10)
        ([] ++ StreamEvent.error (JSError.mk bytesMarker) :: [])).promise.sett
      = Settlement.rejected
          (JSValue.str (rewriteReadFileError (some 10) (jsErrorToString (JSError.mk bytesMarker))))
  ∧ (jsIncludes (jsErrorToString (JSError.mk bytesMarker)) bytesMarker = true →
      rewriteReadFileError (some 10) (jsErrorToString (JSError.mk bytesMarker))
        = "File exceeds max size of " ++ bytesFormat (some 10))
  ∧ (jsIncludes (jsErrorToString (JSError.mk bytesMarker)) bytesMarker = false →
      rewriteReadFileError (some 10) (jsErrorToString (JSError.mk bytesMarker))
        = jsErrorToString (JSError.mk bytesMarker))
  ∧ (HdfsFileSource.readFileRun (some 10)
        ([] ++ StreamEvent.error (JSError.mk bytesMarker) :: [])).promise.resolveAttempts = 0) :=
  ⟨by decide, ⟨fun ev hev => absurd hev (List.not_mem_nil ev),
   readFile_limit_error_contract 10 [] [] (JSError.mk bytesMarker) (by decide)
     (fun ev hev => absurd hev (List.not_mem_nil ev))⟩⟩

/-- Claim C10: a byte limit of exactly zero is falsy, so `readFile`
attaches no byte-counting limiter and the call behaves as an
unbounded read resolving with the full concatenated content. -/
theorem readFile_zero_limit_unbounded (chunks : List String) :
    readFileUsesLimiter (some 0) = false
  ∧ (HdfsFileSource.readFileResult (some 0) chunks).promise.sett
      = Settlement.resolved (String.join chunks) := by
  refine ⟨rfl, ?_⟩
  have hres : HdfsFileSource.readFileResult (some 0) chunks
      = HdfsFileSource.readFileRun (some 0) (sourceStreamEvents chunks) := rfl
  rw [hres]
  unfold HdfsFileSource.readFileRun sourceStreamEvents
  rw [List.foldl_append, readFile_foldl_data]
  simp [HdfsFileSource.readFileStep, jsTruthyOptStr, PState.resolve, PState.start]

/-- Line events are discarded once the reader was closed. -/
theorem readFileLines_foldl_closed (maxLines : Nat) :
    ∀ (ls : List String) (st : ReadFileLinesState),
      st.readerClosed = true →
      List.foldl (HdfsFileSource.readFileLinesStep maxLines) st (ls.map LineEvent.line) = st := by
  intro ls
  induction ls with
  | nil => intro st _; rfl
  | cons l rest ih =>
    intro st hclosed
    rw [List.map_cons, List.foldl_cons]
    have hstep : HdfsFileSource.readFileLinesStep maxLines st (LineEvent.line l) = st := by
      simp [HdfsFileSource.readFileLinesStep, hclosed]
    rw [hstep]
    exact ih st hclosed

/-- Delivering fewer lines than remain below the limit only counts
and buffers them. -/
theorem readFileLines_foldl_below (maxLines : Nat) :
    ∀ (ls : List String) (st : ReadFileLinesState),
      st.readerClosed = false →
      st.lineCount + ls.length < maxLines →
      List.foldl (HdfsFileSource.readFileLinesStep maxLines) st (ls.map LineEvent.line)
        = { st with lineCount := st.lineCount + ls.length, lineData := st.lineData ++ ls } := by
  intro ls
  induction ls with
  | nil => intro st _ _; simp
  | cons l rest ih =>
    intro st hopen hlt
    rw [List.map_cons, List.foldl_cons]
    have hnotreach : ¬ st.lineCount + 1 ≥ maxLines := by
      simp [List.length_cons] at hlt
      omega
    have hstep : HdfsFileSource.readFileLinesStep maxLines st (LineEvent.line l)
        = { st with lineCount := st.lineCount + 1, lineData := st.lineData ++ [l] } := by
      simp [HdfsFileSource.readFileLinesStep, hopen, HdfsFileSource.readFileLinesOnLine,
        hnotreach]
    rw [hstep]
    rw [ih { st with lineCount := st.lineCount + 1, lineData := st.lineData ++ [l] }
      hopen (by simp at hlt ⊢; omega)]
    have hcount : st.lineCount + 1 + rest.length = st.lineCount + (l :: rest).length := by
      simp
      omega
    rw [hcount]
    simp [List.append_assoc]

/-- Delivering at least as many lines as the limit resolves the
promise with the first `maxLines` buffered lines and closes the
reader the moment the counter reaches the limit. -/
theorem readFileLines_foldl_reach (maxLines : Nat) :
    ∀ (ls : List String) (st : ReadFileLinesState),
      st.readerClosed = false →
      st.errorMsg = none →
      st.promise.sett = Settlement.pending →
      st.lineCount < maxLines →
      maxLines ≤ st.lineCount + ls.length →
      (List.foldl (HdfsFileSource.readFileLinesStep maxLines) st
          (ls.map LineEvent.line)).promise.sett
        = Settlement.resolved (String.intercalate osEOL
            (st.lineData ++ ls.take (maxLines - st.lineCount)))
      ∧ (List.foldl (HdfsFileSource.readFileLinesStep maxLines) st
          (ls.map LineEvent.line)).readerClosed = true
      ∧ (List.foldl (HdfsFileSource.readFileLinesStep maxLines) st
          (ls.map LineEvent.line)).errorMsg = none := by
  intro ls
  induction ls with
  | nil =>
    intro st _ _ _ hlt hge
    simp at hge
    omega
  | cons l rest ih =>
    intro st hopen herr hpend hlt hge
    rw [List.map_cons, List.foldl_cons]
    by_cases hreach : st.lineCount + 1 ≥ maxLines
    · have hm : maxLines = st.lineCount + 1 := by omega
      have hstep : HdfsFileSource.readFileLinesStep maxLines st (LineEvent.line l)
          = { st with
                lineCount := st.lineCount + 1
                lineData := st.lineData ++ [l]
                promise := st.promise.resolve
                  (String.intercalate osEOL (st.lineData ++ [l]))
                readerClosed := true } := by
        simp [HdfsFileSource.readFileLinesStep, hopen, HdfsFileSource.readFileLinesOnLine,
          hreach]
      rw [hstep]
      rw [readFileLines_foldl_closed maxLines rest _ rfl]
      have htake : (l :: rest).take (maxLines - st.lineCount) = [l] := by
        rw [hm]
        simp
      rw [htake]
      refine ⟨?_, rfl, herr⟩
      simp [PState.resolve, hpend]
    · have hstep : HdfsFileSource.readFileLinesStep maxLines st (LineEvent.line l)
          = { st with lineCount := st.lineCount + 1, lineData := st.lineData ++ [l] } := by
        simp [HdfsFileSource.readFileLinesStep, hopen, HdfsFileSource.readFileLinesOnLine,
          hreach]
      rw [hstep]
      have hrec := ih { st with lineCount := st.lineCount + 1, lineData := st.lineData ++ [l] }
        hopen herr hpend (by simp; omega) (by simp at hge ⊢; omega)
      refine ⟨?_, hrec.2.1, hrec.2.2⟩
      rw [hrec.1]
      have htake : (l :: rest).take (maxLines - st.lineCount)
          = l :: rest.take (maxLines - (st.lineCount + 1)) := by
        have h1 : maxLines - st.lineCount = (maxLines - (st.lineCount + 1)) + 1 := by omega
        rw [h1]
        rfl
      rw [htake]
      simp

/-- The close handler resolves with the lines collected so far when
no error was captured. -/
theorem readFileLines_close_sett (maxLines : Nat) (r : ReadFileLinesState)
    (he : r.errorMsg = none) :
    (HdfsFileSource.readFileLinesStep maxLines r LineEvent.close).promise.sett
      = (r.promise.resolve (String.intercalate osEOL r.lineData)).sett := by
  simp [HdfsFileSource.readFileLinesStep, he, jsTruthyOptStr]

/-- The close handler does not change whether the reader was closed. -/
theorem readFileLines_close_closed (maxLines : Nat) (r : ReadFileLinesState) :
    (HdfsFileSource.readFileLinesStep maxLines r LineEvent.close).readerClosed
      = r.readerClosed := by
  by_cases h : jsTruthyOptStr r.errorMsg = true
  · simp [HdfsFileSource.readFileLinesStep, h]
  · simp [HdfsFileSource.readFileLinesStep, h]

/-- The nominal `readFileLines` run is the close step applied after
the line events. -/
theorem readFileLinesResult_eq_close_step (maxLines : Nat) (ls : List String) :
    HdfsFileSource.readFileLinesResult maxLines ls
      = HdfsFileSource.readFileLinesStep maxLines
          (List.foldl (HdfsFileSource.readFileLinesStep maxLines)
            { lineCount := 0, lineData := [], errorMsg := none, readerClosed := false,
              promise := PState.start } (ls.map LineEvent.line)) LineEvent.close := by
  unfold HdfsFileSource.readFileLinesResult HdfsFileSource.readFileLinesRun
  rw [List.foldl_append]
  rfl

/-- Claim C3 (amended: `maxLines ≥ 1`): over a source with at least
`maxLines` lines, `readFileLines` resolves — already during line
delivery, before the close event — with exactly the first `maxLines`
lines joined by the platform terminator, the reader is closed, and
the remaining input lines are never included. -/
theorem readFileLines_early_termination (maxLines : Nat) (ls : List String)
    (h1 : 1 ≤ maxLines) (h2 : maxLines ≤ ls.length) :
    (HdfsFileSource.readFileLinesRun maxLines (ls.map LineEvent.line)).promise.sett
      = Settlement.resolved (String.intercalate osEOL (ls.take maxLines))
  ∧ (HdfsFileSource.readFileLinesResult maxLines ls).promise.sett
      = Settlement.resolved (String.intercalate osEOL (ls.take maxLines))
  ∧ (HdfsFileSource.readFileLinesResult maxLines ls).readerClosed = true := by
  obtain ⟨hs, hc, he⟩ := readFileLines_foldl_reach maxLines ls
    { lineCount := 0, lineData := [], errorMsg := none, readerClosed := false,
      promise := PState.start } rfl rfl rfl (show (0:Nat) < maxLines by omega)
    (show maxLines ≤ 0 + ls.length by omega)
  simp only [List.nil_append, Nat.sub_zero] at hs
  refine ⟨hs, ?_, ?_⟩
  · rw [readFileLinesResult_eq_close_step, readFileLines_close_sett maxLines _ he,
      PState.resolve_sett_of_settled _ _ (by rw [hs]; simp)]
    exact hs
  · rw [readFileLinesResult_eq_close_step, readFileLines_close_closed]
    exact hc

/-- Counterexample to C3 as stated: at `maxLines = 0` over the
one-line source `["a"]`, the code resolves with the first line `"a"`,
not with the empty join of the first zero lines. -/
theorem readFileLines_zero_max_counterexample :
    (HdfsFileSource.readFileLinesResult 0 ["a"]).promise.sett = Settlement.resolved "a"
  ∧ decide ((HdfsFileSource.readFileLinesResult 0 ["a"]).promise.sett
      = Settlement.resolved (String.intercalate osEOL (List.take 0 ["a"]))) = false :=
  ⟨by decide, by decide⟩

/-- Witness for the amended C3 at the spec's five-line example. -/
theorem readFileLines_early_termination_witness :
    (1 ≤ 2) ∧ (2 ≤ (["l1", "l2", "l3", "l4", "l5"] : List String).length)
  ∧ ((HdfsFileSource.readFileLinesRun 2
        ((["l1", "l2", "l3", "l4", "l5"] : List String).map LineEvent.line)).promise.sett
      = Settlement.resolved
          (String.intercalate osEOL ((["l1", "l2", "l3", "l4", "l5"] : List String).take 2))
  ∧ (HdfsFileSource.readFileLinesResult 2 ["l1", "l2", "l3", "l4", "l5"]).promise.sett
      = Settlement.resolved
          (String.intercalate osEOL ((["l1", "l2", "l3", "l4", "l5"] : List String).take 2))
  ∧ (HdfsFileSource.readFileLinesResult 2 ["l1", "l2", "l3", "l4", "l5"]).readerClosed = true) :=
  ⟨by decide, ⟨by decide,
    readFileLines_early_termination 2 ["l1", "l2", "l3", "l4", "l5"] (by decide) (by decide)⟩⟩

/-- Claim C6: when the stream ends naturally before the counter
reaches `maxLines` and no error was reported, `readFileLines`
resolves with exactly the lines collected so far joined by the
platform terminator. -/
theorem readFileLines_natural_close (maxLines : Nat) (ls : List String)
    (h : ls.length < maxLines) :
    (HdfsFileSource.readFileLinesResult maxLines ls).promise.sett
      = Settlement.resolved (String.intercalate osEOL ls) := by
  have hbelow := readFileLines_foldl_below maxLines ls
    { lineCount := 0, lineData := [], errorMsg := none, readerClosed := false,
      promise := PState.start } rfl (by simpa using h)
  rw [readFileLinesResult_eq_close_step, hbelow, readFileLines_close_sett maxLines _ rfl]
  simp [PState.resolve, PState.start]

/-- Witness for C6 at the spec's one-line example with a limit of 5. -/
theorem readFileLines_natural_close_witness :
    ((["only"] : List String).length < 5)
  ∧ (HdfsFileSource.readFileLinesResult 5 ["only"]).promise.sett
      = Settlement.resolved (String.intercalate osEOL ["only"]) :=
  ⟨by decide, readFileLines_natural_close 5 ["only"] (by decide)⟩

/-- A found index is within the string. -/
theorem idxOfChar_some_lt {c : Char} :
    ∀ {s : JSString} {i : Nat}, idxOfChar c s = some i → i < s.length := by
  intro s
  induction s with
  | nil => intro i h; simp [idxOfChar] at h
  | cons x xs ih =>
    intro i h
    by_cases hx : x = c
    · simp [idxOfChar, hx] at h
      simp [List.length_cons]
      omega
    · simp [idxOfChar, hx, Option.map_eq_some'] at h
      obtain ⟨j, hj, rfl⟩ := h
      have := ih hj
      simp [List.length_cons]
      omega

/-- Splitting at the first occurrence reassembles the string. -/
theorem idxOfChar_split {c : Char} :
    ∀ {s : JSString} {i : Nat}, idxOfChar c s = some i →
      s.take i ++ c :: s.drop (i + 1) = s := by
  intro s
  induction s with
  | nil => intro i h; simp [idxOfChar] at h
  | cons x xs ih =>
    intro i h
    by_cases hx : x = c
    · simp [idxOfChar, hx] at h
      subst h
      simp [hx]
    · simp [idxOfChar, hx, Option.map_eq_some'] at h
      obtain ⟨j, hj, rfl⟩ := h
      rw [List.take_succ_cons, List.drop_succ_cons]
      rw [List.cons_append]
      rw [ih hj]

/-- The part before the first occurrence does not contain the
character. -/
theorem idxOfChar_not_mem_take {c : Char} :
    ∀ {s : JSString} {i : Nat}, idxOfChar c s = some i → c ∉ s.take i := by
  intro s
  induction s with
  | nil => intro i h; simp [idxOfChar] at h
  | cons x xs ih =>
    intro i h
    by_cases hx : x = c
    · simp [idxOfChar, hx] at h
      subst h
      simp
    · simp [idxOfChar, hx, Option.map_eq_some'] at h
      obtain ⟨j, hj, rfl⟩ := h
      rw [List.take_succ_cons]
      rw [List.mem_cons]
      push_neg
      exact ⟨fun h1 => hx h1.symm, ih hj⟩

/-- No index is found exactly when the character does not occur. -/
theorem idxOfChar_none_iff {c : Char} :
    ∀ {s : JSString}, idxOfChar c s = none ↔ c ∉ s := by
  intro s
  induction s with
  | nil => simp [idxOfChar]
  | cons x xs ih =>
    by_cases hx : x = c
    · simp [idxOfChar, hx]
    · simp [idxOfChar, hx, Option.map_eq_none', ih, List.mem_cons]
      exact fun _ h1 => hx h1.symm

/-- Replacing a nonempty prefix pattern by the empty string drops it. -/
theorem jsReplaceFirst_leading {s pat : JSString} (hne : pat ≠ [])
    (hp : pat.isPrefixOf s = true) : jsReplaceFirst s pat [] = s.drop pat.length := by
  cases s with
  | nil =>
    have : pat <+: [] := List.isPrefixOf_iff_prefix.mp hp
    have := List.prefix_nil.mp this
    exact absurd this hne
  | cons x xs =>
    simp only [jsReplaceFirst, hp]
    simp

/-- Characterization of `setHostAndPort` when the delimiter occurs in
the host: the host becomes the part before the first occurrence and
the port the parse of the part after it. -/
theorem setHostAndPort_found (o : IHdfsOptions) (d : Char) (g : JSString) (i : Nat)
    (hg : o.host = some g) (hi : idxOfChar d g = some i) :
    setHostAndPort o d =
      { o with host := some (g.take i), port := some (jsParseInt (g.drop (i + 1))) } := by
  have hlt : i < g.length := idxOfChar_some_lt hi
  have hsplit := idxOfChar_split hi
  have hidx : jsIndexOf g d = (i : Int) := by simp [jsIndexOf, hi]
  have hslice : jsSlice g 0 (jsIndexOf g d) = g.take i := by
    simp [jsSlice, hidx]
  have hpref : (g.take i ++ [d]).isPrefixOf g = true := by
    rw [List.isPrefixOf_iff_prefix]
    exact ⟨g.drop (i + 1), by simpa [List.append_assoc] using hsplit⟩
  have hlen : (g.take i ++ [d]).length = i + 1 := by
    simp [List.length_take]
    omega
  have hrepl : jsReplaceFirst g (g.take i ++ [d]) [] = g.drop (i + 1) := by
    rw [jsReplaceFirst_leading (by simp) hpref, hlen]
  have hgt : jsIndexOf g d > -1 := by
    rw [hidx]
    omega
  simp only [setHostAndPort, hg]
  rw [if_pos hgt, hslice, hrepl]

/-- Function `setHostAndPort` leaves the options unchanged when the delimiter
does not occur in the host. -/
theorem setHostAndPort_skip (o : IHdfsOptions) (d : Char) (g : JSString)
    (hg : o.host = some g) (hn : idxOfChar d g = none) : setHostAndPort o d = o := by
  have hidx : jsIndexOf g d = -1 := by simp [jsIndexOf, hn]
  simp only [setHostAndPort, hg]
  rw [if_neg (by rw [hidx]; omega)]

/-- Claim C1: for options whose host contains a delimiter, the
factory normalization splits at the comma delimiter first and only
then at the colon delimiter; whenever a delimiter is found the host
becomes the part before it and the port is overwritten with the
parsed remainder; afterwards the host contains no embedded delimiter
and the port is a set numeric field. -/
theorem factory_host_normalization (opts : IHdfsOptions) (h : JSString)
    (hh : opts.host = some h) (hd : ',' ∈ h ∨ ':' ∈ h) :
    createHdfsFileSourceOptions opts = setHostAndPort (setHostAndPort opts ',') ':'
  ∧ (∀ (o : IHdfsOptions) (d : Char) (g : JSString) (i : Nat),
        o.host = some g → idxOfChar d g = some i →
        setHostAndPort o d =
          { o with host := some (g.take i), port := some (jsParseInt (g.drop (i + 1))) })
  ∧ (∃ hostFinal, (createHdfsFileSourceOptions opts).host = some hostFinal
        ∧ ',' ∉ hostFinal ∧ ':' ∉ hostFinal)
  ∧ (∃ p, (createHdfsFileSourceOptions opts).port = some p) := by
  have hne : h ≠ [] := by
    intro hnil
    subst hnil
    rcases hd with hmem | hmem
    · exact absurd hmem (List.not_mem_nil ',')
    · exact absurd hmem (List.not_mem_nil ':')
  obtain ⟨c, cs, rfl⟩ : ∃ c cs, h = c :: cs := by
    cases h with
    | nil => exact absurd rfl hne
    | cons c cs => exact ⟨c, cs, rfl⟩
  have hcreate : createHdfsFileSourceOptions opts = removePortFromHost opts := by
    simp [createHdfsFileSourceOptions, hh]
  have hfinal : ∃ hostFinal p,
      (createHdfsFileSourceOptions opts).host = some hostFinal
      ∧ (createHdfsFileSourceOptions opts).port = some p
      ∧ ',' ∉ hostFinal ∧ ':' ∉ hostFinal := by
    rw [hcreate]
    unfold removePortFromHost
    cases hcomma : idxOfChar ',' (c :: cs) with
    | some i =>
      have e1 := setHostAndPort_found opts ',' (c :: cs) i hh hcomma
      have hc1 : ',' ∉ (c :: cs).take i := idxOfChar_not_mem_take hcomma
      have hh1 : (setHostAndPort opts ',').host = some ((c :: cs).take i) := by
        rw [e1]
      cases hcolon : idxOfChar ':' ((c :: cs).take i) with
      | some j =>
        have e2 := setHostAndPort_found (setHostAndPort opts ',') ':'
          ((c :: cs).take i) j hh1 hcolon
        rw [e2]
        refine ⟨((c :: cs).take i).take j, _, rfl, rfl, ?_, ?_⟩
        · exact fun hmem => hc1 (List.take_subset j _ hmem)
        · exact idxOfChar_not_mem_take hcolon
      | none =>
        have e2 := setHostAndPort_skip (setHostAndPort opts ',') ':'
          ((c :: cs).take i) hh1 hcolon
        rw [e2]
        refine ⟨(c :: cs).take i, jsParseInt ((c :: cs).drop (i + 1)), ?_, ?_,
          hc1, idxOfChar_none_iff.mp hcolon⟩
        · rw [e1]
        · rw [e1]
    | none =>
      have hcm : ',' ∉ (c :: cs) := idxOfChar_none_iff.mp hcomma
      have hcolmem : ':' ∈ (c :: cs) := hd.resolve_left hcm
      have e1 := setHostAndPort_skip opts ',' (c :: cs) hh hcomma
      rw [e1]
      obtain ⟨j, hcolon⟩ : ∃ j, idxOfChar ':' (c :: cs) = some j := by
        cases hc2 : idxOfChar ':' (c :: cs) with
        | none => exact absurd hcolmem (idxOfChar_none_iff.mp hc2)
        | some j => exact ⟨j, rfl⟩
      have e2 := setHostAndPort_found opts ':' (c :: cs) j hh hcolon
      rw [e2]
      refine ⟨(c :: cs).take j, _, rfl, rfl, ?_, idxOfChar_not_mem_take hcolon⟩
      exact fun hmem => hcm (List.take_subset j _ hmem)
  obtain ⟨hostFinal, p, hH, hP, hnc, hncol⟩ := hfinal
  exact ⟨by rw [hcreate]; rfl,
    fun o d g i hg hi => setHostAndPort_found o d g i hg hi,
    ⟨hostFinal, hH, hnc, hncol⟩, ⟨p, hP⟩⟩

/-- Witness for C1 at the concrete host `"a,18"`. -/
theorem factory_host_normalization_witness :
    (c1OptsW.host = some ('a' :: ',' :: '1' :: '8' :: []))
  ∧ ((',' ∈ ('a' :: ',' :: '1' :: '8' :: ([] : List Char)))
      ∨ (':' ∈ ('a' :: ',' :: '1' :: '8' :: ([] : List Char))))
  ∧ (createHdfsFileSourceOptions c1OptsW = setHostAndPort (setHostAndPort c1OptsW ',') ':'
  ∧ (∀ (o : IHdfsOptions) (d : Char) (g : JSString) (i : Nat),
        o.host = some g → idxOfChar d g = some i →
        setHostAndPort o d =
          { o with host := some (g.take i), port := some (jsParseInt (g.drop (i + 1))) })
  ∧ (∃ hostFinal, (createHdfsFileSourceOptions c1OptsW).host = some hostFinal
        ∧ ',' ∉ hostFinal ∧ ':' ∉ hostFinal)
  ∧ (∃ p, (createHdfsFileSourceOptions c1OptsW).port = some p)) :=
  ⟨rfl, ⟨Or.inl (by decide),
    factory_host_normalization c1OptsW ('a' :: ',' :: '1' :: '8' :: []) rfl
      (Or.inl (by decide))⟩⟩
